import Mathlib

set_option maxHeartbeats 1000000

/-!
Shallow embedding of bioptim/dynamics/integrator.py (the direct-transcription
integration layer): explicit Runge-Kutta integrators (RK4, RK8) with mid-step
quaternion renormalization, the implicit collocation integrator (IRK), and the
control-interpolation helper get_u.  State columns are lists of reals (one entry
per state row); matrices are lists of columns.  Fallible Python code (raise) is
modelled with Except.
-/

/-- Python exception kinds raised by the integrator module (messages elided). -/
inductive PyError where
  | RuntimeError : PyError
  | NotImplementedError : PyError
deriving DecidableEq

/-- Modelled from the spec: the ControlType enum of bioptim/misc/enums.py, which the
integrator module imports but which is not among the provided sources.  CONSTANT and
LINEAR_CONTINUOUS are the two control parametrizations the spec describes; NONE stands
for any other member of the enum (an unsupported control type). -/
inductive ControlType where
  | NONE : ControlType
  | CONSTANT : ControlType
  | LINEAR_CONTINUOUS : ControlType
deriving DecidableEq

/-- Elementwise sum of two state columns (CasADi matrix addition). -/
def vadd (a b : List ℝ) : List ℝ := List.zipWith (fun x y => x + y) a b

/-- Elementwise difference of two state columns (CasADi matrix subtraction). -/
def vsub (a b : List ℝ) : List ℝ := List.zipWith (fun x y => x - y) a b

/-- Scalar multiple of a state column (CasADi scalar-matrix product). -/
noncomputable def vsmul (c : ℝ) (a : List ℝ) : List ℝ := a.map (fun x => c * x)

/-- Integrator.get_u: the control at normalized time dt_norm inside one interval.
The control trajectory u is a matrix given as its list of columns; under CONSTANT it
is returned unchanged, under LINEAR_CONTINUOUS the two bounding columns are combined
as u[:,0] + (u[:,1] - u[:,0]) * dt_norm, and any other control type raises
RuntimeError. -/
def Integrator.get_u (controlType : ControlType) (u : List (List ℝ)) (dtNorm : ℝ) :
    Except PyError (List (List ℝ)) :=
  match controlType with
  | ControlType.CONSTANT => Except.ok u
  | ControlType.LINEAR_CONTINUOUS =>
      match u with
      | u0 :: u1 :: _ =>
          Except.ok [List.zipWith (fun a b => a + (b - a) * dtNorm) u0 u1]
      | _ => Except.error PyError.RuntimeError
  | _ => Except.error PyError.RuntimeError

/-- IRK.get_u: the override used by the implicit integrator; it delegates to
Integrator.get_u for CONSTANT and raises NotImplementedError for every other control
type. -/
def IRK.get_u (controlType : ControlType) (u : List (List ℝ)) (dtNorm : ℝ) :
    Except PyError (List (List ℝ)) :=
  match controlType with
  | ControlType.CONSTANT => Integrator.get_u controlType u dtNorm
  | _ => Except.error PyError.NotImplementedError

section ListHelpers

theorem getD_set_self (l : List ℝ) (i : ℕ) (a : ℝ) (h : i < l.length) :
    (l.set i a).getD i 0 = a := by
  rw [List.getD_eq_getElem?_getD, List.getElem?_set_self (by simpa using h)]
  simp

theorem getD_set_ne (l : List ℝ) (i j : ℕ) (a : ℝ) (hij : i ≠ j) :
    (l.set i a).getD j 0 = l.getD j 0 := by
  rw [List.getD_eq_getElem?_getD, List.getElem?_set_ne hij, ← List.getD_eq_getElem?_getD]

theorem length_vadd (a b : List ℝ) : (vadd a b).length = min a.length b.length := by
  simp [vadd]

theorem length_vsub (a b : List ℝ) : (vsub a b).length = min a.length b.length := by
  simp [vsub]

theorem length_vsmul (c : ℝ) (a : List ℝ) : (vsmul c a).length = a.length := by
  simp [vsmul]

theorem getD_vadd (a b : List ℝ) (k : ℕ) (h1 : k < a.length) (h2 : k < b.length) :
    (vadd a b).getD k 0 = a.getD k 0 + b.getD k 0 := by
  rw [List.getD_eq_getElem?_getD, vadd, List.getElem?_zipWith,
    List.getElem?_eq_getElem h1, List.getElem?_eq_getElem h2]
  simp [List.getD_eq_getElem?_getD, List.getElem?_eq_getElem h1, List.getElem?_eq_getElem h2]

theorem getD_vsub (a b : List ℝ) (k : ℕ) (h1 : k < a.length) (h2 : k < b.length) :
    (vsub a b).getD k 0 = a.getD k 0 - b.getD k 0 := by
  rw [List.getD_eq_getElem?_getD, vsub, List.getElem?_zipWith,
    List.getElem?_eq_getElem h1, List.getElem?_eq_getElem h2]
  simp [List.getD_eq_getElem?_getD, List.getElem?_eq_getElem h1, List.getElem?_eq_getElem h2]

theorem getD_vsmul (c : ℝ) (a : List ℝ) (k : ℕ) (h1 : k < a.length) :
    (vsmul c a).getD k 0 = c * a.getD k 0 := by
  rw [List.getD_eq_getElem?_getD, vsmul, List.getElem?_map, List.getElem?_eq_getElem h1]
  simp [List.getD_eq_getElem?_getD, List.getElem?_eq_getElem h1]

theorem vsmul_replicate_zero (c : ℝ) (n : ℕ) :
    vsmul c (List.replicate n 0) = List.replicate n 0 := by
  simp [vsmul]

theorem vadd_replicate_zero (a : List ℝ) (n : ℕ) (h : a.length = n) :
    vadd a (List.replicate n 0) = a := by
  induction a generalizing n with
  | nil => simp [vadd]
  | cons x xs ih =>
    cases n with
    | zero => simp at h
    | succ m => simp [vadd, List.replicate_succ, show List.zipWith _ _ _ = xs from ih m (by simpa using h)]

theorem vadd_replicate_zero_left (a : List ℝ) (n : ℕ) (h : a.length = n) :
    vadd (List.replicate n 0) a = a := by
  induction a generalizing n with
  | nil => simp [vadd]
  | cons x xs ih =>
    cases n with
    | zero => simp at h
    | succ m => simp [vadd, List.replicate_succ, show List.zipWith _ _ _ = xs from ih m (by simpa using h)]

theorem vadd_rep_rep (n : ℕ) :
    vadd (List.replicate n (0:ℝ)) (List.replicate n 0) = List.replicate n 0 :=
  vadd_replicate_zero _ n (by simp)

theorem vsub_rep_rep (n : ℕ) :
    vsub (List.replicate n (0:ℝ)) (List.replicate n 0) = List.replicate n 0 := by
  induction n with
  | zero => simp [vsub]
  | succ m ih =>
    rw [List.replicate_succ, vsub, List.zipWith_cons_cons]
    have hz : (0:ℝ) - 0 = 0 := by ring
    have ih2 : List.zipWith (fun x y => x - y) (List.replicate m (0:ℝ))
        (List.replicate m 0) = List.replicate m 0 := ih
    rw [hz, ih2]

theorem zipWith_left_of_length_eq (c0 c1 : List ℝ) (h : c0.length = c1.length) :
    List.zipWith (fun a b => a + (b - a) * (0:ℝ)) c0 c1 = c0 := by
  induction c0 generalizing c1 with
  | nil => simp
  | cons x xs ih =>
    cases c1 with
    | nil => simp at h
    | cons y ys =>
      rw [List.zipWith_cons_cons]
      have hx : x + (y - x) * (0:ℝ) = x := by ring
      rw [hx, ih ys (by simpa using h)]

theorem zipWith_right_of_length_eq (c0 c1 : List ℝ) (h : c0.length = c1.length) :
    List.zipWith (fun a b => a + (b - a) * (1:ℝ)) c0 c1 = c1 := by
  induction c0 generalizing c1 with
  | nil => cases c1 with | nil => simp | cons y ys => simp at h
  | cons x xs ih =>
    cases c1 with
    | nil => simp at h
    | cons y ys =>
      rw [List.zipWith_cons_cons]
      have hy : x + (y - x) * (1:ℝ) = y := by ring
      rw [hy, ih ys (by simpa using h)]

end ListHelpers

/-- Model-introspection data for one body segment, as consumed by RK.dxdt at
construction time: the rotation-is-quaternion flag and the degree-of-freedom count. -/
structure Segment where
  isRotationAQuaternion : Bool
  nbDof : ℕ
deriving DecidableEq

/-- Indices of one quaternion block in the state vector, as the list
[n_dof, n_dof + 1, n_dof + 2, model.nbDof() + quat_number] built in RK.dxdt. -/
structure QuatBlock where
  i0 : ℕ
  i1 : ℕ
  i2 : ℕ
  i3 : ℕ
deriving DecidableEq

/-- The four indices of a quaternion block. -/
def QuatBlock.indices (q : QuatBlock) : List ℕ := [q.i0, q.i1, q.i2, q.i3]

/-- A quaternion block is well formed when its four state indices are distinct. -/
def QuatBlock.WellFormed (q : QuatBlock) : Prop := q.indices.Nodup

/-- All four indices of the block address rows of a column of length n. -/
def QuatBlock.InBounds (q : QuatBlock) (n : ℕ) : Prop :=
  q.i0 < n ∧ q.i1 < n ∧ q.i2 < n ∧ q.i3 < n

/-- The writes of block q never touch the reads of block p. -/
def QuatBlock.DisjointFrom (q p : QuatBlock) : Prop :=
  ∀ a ∈ q.indices, a ∉ p.indices

/-- Accumulating loop of RK.dxdt that builds quat_idx: n_dof sums the segment dofs seen
so far and quat_number counts the quaternion segments seen so far. -/
def quatIdxAux (nbDofTotal : ℕ) : List Segment → ℕ → ℕ → List QuatBlock
  | [], _, _ => []
  | s :: rest, nDof, quatNumber =>
      if s.isRotationAQuaternion then
        ⟨nDof, nDof + 1, nDof + 2, nbDofTotal + quatNumber⟩ ::
          quatIdxAux nbDofTotal rest (nDof + s.nbDof) (quatNumber + 1)
      else
        quatIdxAux nbDofTotal rest (nDof + s.nbDof) quatNumber

/-- The quat_idx list of RK.dxdt: one block of four state indices per quaternion
segment of the model (nbDofTotal is model.nbDof()). -/
def quatIdx (nbDofTotal : ℕ) (segments : List Segment) : List QuatBlock :=
  quatIdxAux nbDofTotal segments 0 0

/-- Squared Euclidean norm of the 4-vector (w, x, y, z) assembled from column c at
block q, in the assembly order of RK.dxdt (scalar part first). -/
noncomputable def quatNormSq (c : List ℝ) (q : QuatBlock) : ℝ :=
  (c.getD q.i3 0) ^ 2 + (c.getD q.i0 0) ^ 2 + (c.getD q.i1 0) ^ 2 + (c.getD q.i2 0) ^ 2

/-- The divisor used by the renormalization: CasADi norm_fro of the assembled
4-vector, the square root of the sum of its squared entries.  There is no guard
against this being zero. -/
noncomputable def quatDivisor (c : List ℝ) (q : QuatBlock) : ℝ :=
  Real.sqrt (quatNormSq c q)

/-- Loop body of the quaternion renormalization in RK.dxdt: assemble
(w, x, y, z) = (c[i3], c[i0], c[i1], c[i2]), divide the 4-vector by its norm_fro, and
write the vector part back at i0..i2 and the scalar part at i3. -/
noncomputable def renormQuat (c : List ℝ) (q : QuatBlock) : List ℝ :=
  let w := c.getD q.i3 0
  let a := c.getD q.i0 0
  let b := c.getD q.i1 0
  let d := c.getD q.i2 0
  let s := quatDivisor c q
  (((c.set q.i0 (a / s)).set q.i1 (b / s)).set q.i2 (d / s)).set q.i3 (w / s)

/-- The full inner renormalization loop of RK.dxdt over all quaternion blocks of the
model, applied to one freshly computed trajectory column. -/
noncomputable def renormAll (quats : List QuatBlock) (c : List ℝ) : List ℝ :=
  quats.foldl renormQuat c

/-- RK4.next_x: one classical fourth-order Runge-Kutta sub-step.  fn is the dynamics
function (returning a matrix as a list of columns, of which column idx is taken), ct
the control type used by get_u, hNorm the normalized sub-step 1/n_step. -/
noncomputable def RK4.next_x (ct : ControlType)
    (fn : List ℝ → List (List ℝ) → List ℝ → List (List ℝ)) (idx : ℕ) (hNorm : ℝ)
    (h t : ℝ) (xPrev : List ℝ) (u : List (List ℝ)) (p : List ℝ) :
    Except PyError (List ℝ) := do
  let u1 ← Integrator.get_u ct u t
  let k1 := (fn xPrev u1 p).getD idx []
  let u2 ← Integrator.get_u ct u (t + hNorm / 2)
  let k2 := (fn (vadd xPrev (vsmul (h / 2) k1)) u2 p).getD idx []
  let u3 ← Integrator.get_u ct u (t + hNorm / 2)
  let k3 := (fn (vadd xPrev (vsmul (h / 2) k2)) u3 p).getD idx []
  let u4 ← Integrator.get_u ct u (t + hNorm)
  let k4 := (fn (vadd xPrev (vsmul h k3)) u4 p).getD idx []
  return vadd xPrev (vsmul (h / 6) (vadd (vadd (vadd k1 (vsmul 2 k2)) (vsmul 2 k3)) k4))

/-- RK8.next_x: one sub-step of the fixed ten-stage eighth-order Runge-Kutta tableau,
with the literal Butcher coefficients of the source. -/
noncomputable def RK8.next_x (ct : ControlType)
    (fn : List ℝ → List (List ℝ) → List ℝ → List (List ℝ)) (idx : ℕ) (hNorm : ℝ)
    (h t : ℝ) (xPrev : List ℝ) (u : List (List ℝ)) (p : List ℝ) :
    Except PyError (List ℝ) := do
  let u1 ← Integrator.get_u ct u t
  let k1 := (fn xPrev u1 p).getD idx []
  let u2 ← Integrator.get_u ct u (t + hNorm * (4 / 27))
  let k2 := (fn (vadd xPrev (vsmul (h * 4 / 27) k1)) u2 p).getD idx []
  let u3 ← Integrator.get_u ct u (t + hNorm * (2 / 9))
  let k3 := (fn (vadd xPrev (vsmul (h / 18) (vadd k1 (vsmul 3 k2)))) u3 p).getD idx []
  let u4 ← Integrator.get_u ct u (t + hNorm * (1 / 3))
  let k4 := (fn (vadd xPrev (vsmul (h / 12) (vadd k1 (vsmul 3 k3)))) u4 p).getD idx []
  let u5 ← Integrator.get_u ct u (t + hNorm * (1 / 2))
  let k5 := (fn (vadd xPrev (vsmul (h / 8) (vadd k1 (vsmul 3 k4)))) u5 p).getD idx []
  let u6 ← Integrator.get_u ct u (t + hNorm * (2 / 3))
  let k6 := (fn (vadd xPrev (vsmul (h / 54)
    (vadd (vadd (vsub (vsmul 13 k1) (vsmul 27 k3)) (vsmul 42 k4)) (vsmul 8 k5)))) u6 p).getD idx []
  let u7 ← Integrator.get_u ct u (t + hNorm * (1 / 6))
  let k7 := (fn (vadd xPrev (vsmul (h / 4320)
    (vadd (vsub (vadd (vsub (vsmul 389 k1) (vsmul 54 k3)) (vsmul 966 k4)) (vsmul 824 k5))
      (vsmul 243 k6)))) u7 p).getD idx []
  let u8 ← Integrator.get_u ct u (t + hNorm)
  let k8 := (fn (vadd xPrev (vsmul (h / 20)
    (vadd (vsub (vadd (vsub (vadd (vsmul (-234) k1) (vsmul 81 k3)) (vsmul 1164 k4))
      (vsmul 656 k5)) (vsmul 122 k6)) (vsmul 800 k7)))) u8 p).getD idx []
  let u9 ← Integrator.get_u ct u (t + hNorm * (5 / 6))
  let k9 := (fn (vadd xPrev (vsmul (h / 288)
    (vadd (vadd (vsub (vadd (vsub (vadd (vsmul (-127) k1) (vsmul 18 k3)) (vsmul 678 k4))
      (vsmul 456 k5)) (vsmul 9 k6)) (vsmul 576 k7)) (vsmul 4 k8)))) u9 p).getD idx []
  let u10 ← Integrator.get_u ct u (t + hNorm)
  let k10 := (fn (vadd xPrev (vsmul (h / 820)
    (vadd (vsub (vsub (vadd (vsub (vadd (vsub (vsmul 1481 k1) (vsmul 81 k3)) (vsmul 7104 k4))
      (vsmul 3376 k5)) (vsmul 72 k6)) (vsmul 5040 k7)) (vsmul 60 k8)) (vsmul 720 k9))))
    u10 p).getD idx []
  return vadd xPrev (vsmul (h / 840)
    (vadd (vadd (vadd (vadd (vadd (vadd (vsmul 41 k1) (vsmul 27 k4)) (vsmul 272 k5))
      (vsmul 27 k6)) (vsmul 216 k7)) (vsmul 216 k9)) (vsmul 41 k10)))

/-- The literal Butcher data of the ten stages of RK8.next_x: for each stage, the
fractional time offset as a numerator-denominator pair, and the common divisor and
integer coefficients of the state combination it is evaluated at. -/
def rk8Tableau : List ((ℕ × ℕ) × (ℕ × List ℤ)) :=
  [ ((0, 1), (1, [])),
    ((4, 27), (27, [4])),
    ((2, 9), (18, [1, 3])),
    ((1, 3), (12, [1, 0, 3])),
    ((1, 2), (8, [1, 0, 0, 3])),
    ((2, 3), (54, [13, 0, -27, 42, 8])),
    ((1, 6), (4320, [389, 0, -54, 966, -824, 243])),
    ((1, 1), (20, [-234, 0, 81, -1164, 656, -122, 800])),
    ((5, 6), (288, [-127, 0, 18, -678, 456, -9, 576, 4])),
    ((1, 1), (820, [1481, 0, -81, 7104, -3376, 72, -5040, -60, 720])) ]

/-- Sub-step loop of RK.dxdt over a list of sub-step indices i (the source iterates
i = 1 .. n_step): for each i it computes the next column from the previous one with
next_x at normalized start time (i - 1) / n_step and then renormalizes every
quaternion block of that column in place.  Returns trajectory columns 1 .. n_step. -/
noncomputable def RK.steps
    (next_x : ℝ → ℝ → List ℝ → List (List ℝ) → List ℝ → Except PyError (List ℝ))
    (quats : List QuatBlock) (nStep : ℕ) (h : ℝ)
    (u : List (List ℝ)) (p : List ℝ) :
    List ℝ → List ℕ → Except PyError (List (List ℝ))
  | _, [] => Except.ok []
  | xPrev, i :: rest => do
      let xi ← next_x h (((i : ℝ) - 1) / (nStep : ℝ)) xPrev u p
      let xc := renormAll quats xi
      let tail ← RK.steps next_x quats nStep h u p xc rest
      return xc :: tail

/-- RK.dxdt: the explicit integrators' whole finite element.  The trajectory matrix
is the list of its columns, column 0 being the input state; the first component of
the result is the last trajectory column. -/
noncomputable def RK.dxdt (segments : List Segment) (nbDofTotal : ℕ) (nStep : ℕ)
    (next_x : ℝ → ℝ → List ℝ → List (List ℝ) → List ℝ → Except PyError (List ℝ))
    (h : ℝ) (states : List ℝ) (controls : List (List ℝ)) (params : List ℝ) :
    Except PyError (List ℝ × List (List ℝ)) := do
  let quats := quatIdx nbDofTotal segments
  let cols ← RK.steps next_x quats nStep h controls params states (List.range' 1 nStep)
  let x := states :: cols
  return (x.getLastD [], x)

/-- Lagrange basis factor product built in IRK.dxdt: starting from the literal 1, for
every r different from j multiply by (t - tau_r) / (tau_j - tau_r) over the d + 1
collocation time points. -/
noncomputable def lagrangeBasis (timePoints : List ℝ) (j : ℕ) (t : ℝ) : ℝ :=
  ((List.range timePoints.length).filter (fun r => r ≠ j)).foldl
    (fun acc r => acc * ((t - timePoints.getD r 0) / (timePoints.getD j 0 - timePoints.getD r 0)))
    1

/-- The continuity coefficient _d[j] of IRK.dxdt: the basis polynomial of point j
evaluated at the final time 1.0. -/
noncomputable def collD (timePoints : List ℝ) (j : ℕ) : ℝ :=
  lagrangeBasis timePoints j 1

/-- The collocation coefficient _c[j, r] of IRK.dxdt: the time derivative (CasADi
tangent) of the basis polynomial of point j, evaluated at collocation point r. -/
noncomputable def collC (timePoints : List ℝ) (j r : ℕ) : ℝ :=
  deriv (lagrangeBasis timePoints j) (timePoints.getD r 0)

/-- Modelled from the spec: CasADi collocation_points(d, "legendre"), an external
collaborator of IRK.dxdt, returns the d Gauss-Legendre collocation points: the roots,
all lying in (0, 1], of the degree-d shifted Legendre polynomial, listed in increasing
order.  shiftedLegendre is the Rodrigues form (without its nonzero constant factor),
whose roots are exactly the Gauss-Legendre points of the unit interval. -/
noncomputable def shiftedLegendre (d : ℕ) : Polynomial ℝ :=
  Polynomial.derivative^[d] (Polynomial.X ^ d * (Polynomial.X - 1) ^ d)

/-- Contract of the external collocation_points call for the "legendre" scheme. -/
def IsLegendreCollocationPoints (d : ℕ) (pts : List ℝ) : Prop :=
  pts.length = d ∧ pts.Sorted (· < ·) ∧
    ∀ t ∈ pts, 0 < t ∧ t ≤ 1 ∧ (shiftedLegendre d).eval t = 0

/-- Normalized time t_norm_init = (j - 1) / degree at which IRK.dxdt samples the
control for the j-th collocation equation. -/
noncomputable def IRK.controlTime (degree j : ℕ) : ℝ := ((j : ℝ) - 1) / (degree : ℝ)

/-- The controls sampled by IRK.dxdt for the collocation equations j = 1 .. degree
(this is where an unsupported control type raises, during graph construction and
independently of the root-finder and of any numeric evaluation). -/
noncomputable def IRK.sampledControls (degree : ℕ) (ct : ControlType)
    (u : List (List ℝ)) : Except PyError (List (List (List ℝ))) :=
  (List.range' 1 degree).mapM (fun j => IRK.get_u ct u (IRK.controlTime degree j))

/-- The j-th collocation equation of IRK.dxdt: h * f_j - xp_j, where
xp_j = sum over r of _c[r, j] * x_r accumulated from 0, and f_j is column idx of the
dynamics at state point x_j with the control sampled for equation j.  x is the list
x_0 = x0 followed by the interior state points, us the list of sampled controls. -/
noncomputable def IRK.residual (degree nx idx : ℕ) (timePoints : List ℝ)
    (fn : List ℝ → List (List ℝ) → List ℝ → List (List ℝ))
    (h : ℝ) (params : List ℝ) (us : List (List (List ℝ))) (x : List (List ℝ))
    (j : ℕ) : List ℝ :=
  let xpj := (List.range (degree + 1)).foldl
    (fun acc r => vadd acc (vsmul (collC timePoints r j) (x.getD r [])))
    (List.replicate nx 0)
  let fj := (fn (x.getD j []) (us.getD (j - 1) []) params).getD idx []
  vsub (vsmul h fj) xpj

/-- The stacked list of the collocation equations of IRK.dxdt, one per j = 1 .. degree
and none for j = 0. -/
noncomputable def IRK.residualList (degree nx idx : ℕ) (timePoints : List ℝ)
    (fn : List ℝ → List (List ℝ) → List ℝ → List (List ℝ))
    (h : ℝ) (params : List ℝ) (us : List (List (List ℝ))) (x : List (List ℝ)) :
    List (List ℝ) :=
  (List.range' 1 degree).map (IRK.residual degree nx idx timePoints fn h params us x)

/-- The last column of the continuity fold of IRK.dxdt: starting from zeros, add
_d[r] * x_r for r = 0 .. degree. -/
noncomputable def IRK.xfFold (degree nx : ℕ) (timePoints : List ℝ)
    (x : List (List ℝ)) : List ℝ :=
  (List.range (degree + 1)).foldl
    (fun acc r => vadd acc (vsmul (collD timePoints r) (x.getD r [])))
    (List.replicate nx 0)

/-- IRK.dxdt: the implicit collocation integrator's finite element.  pts is the
result of the external collocation_points call; the Newton root-finder is the
external collaborator solver, mapping the stacked residual function (parametrized by
the interior state points) to the solved interior points.  The result is the
endpoint xf together with the two-column trajectory [x0, xf]. -/
noncomputable def IRK.dxdt (degree nx idx : ℕ) (ct : ControlType) (pts : List ℝ)
    (fn : List ℝ → List (List ℝ) → List ℝ → List (List ℝ))
    (solver : (List (List ℝ) → List (List ℝ)) → List (List ℝ))
    (h : ℝ) (x0 : List ℝ) (u : List (List ℝ)) (params : List ℝ) :
    Except PyError (List ℝ × List (List ℝ)) := do
  let timePoints := (0 : ℝ) :: pts
  let us ← IRK.sampledControls degree ct u
  let solved := solver (fun xs =>
    IRK.residualList degree nx idx timePoints fn h params us (x0 :: xs))
  let x := x0 :: solved
  let xf := IRK.xfFold degree nx timePoints x
  return (xf, [x0, xf])

/-- C6: under CONSTANT, get_u returns the control matrix unchanged for every
normalized time; under LINEAR_CONTINUOUS it returns u[:,0] + (u[:,1] - u[:,0]) * t_norm,
and in particular the first column exactly at t_norm = 0 and the second column exactly
at t_norm = 1. -/
theorem C6_control_interpolation :
    (∀ (u : List (List ℝ)) (t : ℝ),
      Integrator.get_u ControlType.CONSTANT u t = Except.ok u) ∧
    (∀ (c0 c1 : List ℝ) (rest : List (List ℝ)) (t : ℝ),
      Integrator.get_u ControlType.LINEAR_CONTINUOUS (c0 :: c1 :: rest) t =
        Except.ok [List.zipWith (fun a b => a + (b - a) * t) c0 c1]) ∧
    (∀ (c0 c1 : List ℝ) (rest : List (List ℝ)), c0.length = c1.length →
      Integrator.get_u ControlType.LINEAR_CONTINUOUS (c0 :: c1 :: rest) 0 =
        Except.ok [c0] ∧
      Integrator.get_u ControlType.LINEAR_CONTINUOUS (c0 :: c1 :: rest) 1 =
        Except.ok [c1]) := by
  refine ⟨fun u t => rfl, fun c0 c1 rest t => rfl, fun c0 c1 rest hlen => ⟨?_, ?_⟩⟩
  · simp only [Integrator.get_u, zipWith_left_of_length_eq c0 c1 hlen]
  · simp only [Integrator.get_u, zipWith_right_of_length_eq c0 c1 hlen]

/-- Witness for C6 at a concrete two-column control matrix. -/
theorem C6_control_interpolation_witness :
    Integrator.get_u ControlType.LINEAR_CONTINUOUS [[(1:ℝ), 5], [3, 7]] 0 =
      Except.ok [[(1:ℝ), 5]] ∧
    Integrator.get_u ControlType.LINEAR_CONTINUOUS [[(1:ℝ), 5], [3, 7]] 1 =
      Except.ok [[(3:ℝ), 7]] :=
  C6_control_interpolation.2.2 [1, 5] [3, 7] [] rfl

/-- C7: every control type other than CONSTANT and LINEAR_CONTINUOUS makes get_u
raise; the implicit integrator's get_u raises NotImplementedError for every
non-CONSTANT control type; and IRK.dxdt with LINEAR_CONTINUOUS control raises
NotImplementedError while building the collocation equations, for every dynamics,
every root-finding solver and every input, hence before any numeric evaluation. -/
theorem C7_unsupported_control_type :
    (∀ ct, ct ≠ ControlType.CONSTANT → ct ≠ ControlType.LINEAR_CONTINUOUS →
      ∀ (u : List (List ℝ)) (t : ℝ),
        Integrator.get_u ct u t = Except.error PyError.RuntimeError) ∧
    (∀ ct, ct ≠ ControlType.CONSTANT → ∀ (u : List (List ℝ)) (t : ℝ),
      IRK.get_u ct u t = Except.error PyError.NotImplementedError) ∧
    (∀ degree nx idx pts fn solver h x0 u params, 1 ≤ degree →
      IRK.dxdt degree nx idx ControlType.LINEAR_CONTINUOUS pts fn solver h x0 u params =
        Except.error PyError.NotImplementedError) := by
  refine ⟨?_, ?_, ?_⟩
  · intro ct hc hl u t
    cases ct with
    | NONE => rfl
    | CONSTANT => exact absurd rfl hc
    | LINEAR_CONTINUOUS => exact absurd rfl hl
  · intro ct hc u t
    cases ct with
    | NONE => rfl
    | CONSTANT => exact absurd rfl hc
    | LINEAR_CONTINUOUS => rfl
  · intro degree nx idx pts fn solver h x0 u params hd
    cases degree with
    | zero => exact absurd hd (by norm_num)
    | succ m =>
      simp [IRK.dxdt, IRK.sampledControls, List.range'_succ, IRK.get_u, List.mapM,
        List.mapM.loop, Except.bind, Bind.bind, Except.map, Functor.map]

/-- Witness for C7 at concrete inputs of degree 1. -/
theorem C7_unsupported_control_type_witness :
    IRK.dxdt 1 1 0 ControlType.LINEAR_CONTINUOUS [] (fun _ _ _ => [])
      (fun _ => []) 1 [] [] [] = Except.error PyError.NotImplementedError :=
  C7_unsupported_control_type.2.2 1 1 0 [] (fun _ _ _ => []) (fun _ => [])
    1 [] [] [] (le_refl 1)

/-- C4: the RK4 sub-step evaluates the dynamics exactly four times, at the previous
state with the control sampled at t, at the two half-step-advanced states with the
control sampled at t + h_norm / 2, and at the full-step-advanced state with the
control sampled at t + h_norm, and returns x_prev + h/6 * (k1 + 2 k2 + 2 k3 + k4). -/
theorem C4_rk4_substep (ct : ControlType)
    (fn : List ℝ → List (List ℝ) → List ℝ → List (List ℝ)) (idx : ℕ)
    (hNorm h t : ℝ) (xPrev : List ℝ) (u : List (List ℝ)) (p : List ℝ)
    (u1 u2 u4 : List (List ℝ))
    (h1 : Integrator.get_u ct u t = Except.ok u1)
    (h2 : Integrator.get_u ct u (t + hNorm / 2) = Except.ok u2)
    (h4 : Integrator.get_u ct u (t + hNorm) = Except.ok u4) :
    ∃ k1 k2 k3 k4,
      k1 = (fn xPrev u1 p).getD idx [] ∧
      k2 = (fn (vadd xPrev (vsmul (h / 2) k1)) u2 p).getD idx [] ∧
      k3 = (fn (vadd xPrev (vsmul (h / 2) k2)) u2 p).getD idx [] ∧
      k4 = (fn (vadd xPrev (vsmul h k3)) u4 p).getD idx [] ∧
      RK4.next_x ct fn idx hNorm h t xPrev u p =
        Except.ok (vadd xPrev (vsmul (h / 6)
          (vadd (vadd (vadd k1 (vsmul 2 k2)) (vsmul 2 k3)) k4))) := by
  refine ⟨_, _, _, _, rfl, rfl, rfl, rfl, ?_⟩
  simp [RK4.next_x, h1, h2, h4, Except.bind, Bind.bind, pure, Except.pure]

/-- Witness for C4 at concrete inputs. -/
theorem C4_rk4_substep_witness :
    ∃ k1 k2 k3 k4,
      k1 = (((fun (_ : List ℝ) (_ : List (List ℝ)) (_ : List ℝ) =>
        ([] : List (List ℝ)))) [] [] []).getD 0 [] ∧
      k2 = (((fun (_ : List ℝ) (_ : List (List ℝ)) (_ : List ℝ) =>
        ([] : List (List ℝ)))) (vadd [] (vsmul ((1:ℝ) / 2) k1)) [] []).getD 0 [] ∧
      k3 = (((fun (_ : List ℝ) (_ : List (List ℝ)) (_ : List ℝ) =>
        ([] : List (List ℝ)))) (vadd [] (vsmul ((1:ℝ) / 2) k2)) [] []).getD 0 [] ∧
      k4 = (((fun (_ : List ℝ) (_ : List (List ℝ)) (_ : List ℝ) =>
        ([] : List (List ℝ)))) (vadd [] (vsmul (1:ℝ) k3)) [] []).getD 0 [] ∧
      RK4.next_x ControlType.CONSTANT
        (fun _ _ _ => ([] : List (List ℝ))) 0 1 1 0 [] [] [] =
        Except.ok (vadd [] (vsmul ((1:ℝ) / 6)
          (vadd (vadd (vadd k1 (vsmul 2 k2)) (vsmul 2 k3)) k4))) :=
  C4_rk4_substep ControlType.CONSTANT (fun _ _ _ => []) 0 1 1 0 [] [] [] [] [] []
    rfl rfl rfl

/-- A trivial dynamics function used to instantiate theorems at concrete inputs. -/
def fnNil : List ℝ → List (List ℝ) → List ℝ → List (List ℝ) := fun _ _ _ => []

/-- C5: the RK8 sub-step performs ten sequential dynamics evaluations whose stage
states and fractional control-sampling times carry the fixed literal Butcher
coefficients (whose ten time/state-combination rows are pairwise distinct), and the
returned value combines only stages 1, 4, 5, 6, 7, 9, 10 with the rational weights
41, 27, 272, 27, 216, 216, 41 scaled by h/840. -/
theorem C5_rk8_substep (ct : ControlType)
    (fn : List ℝ → List (List ℝ) → List ℝ → List (List ℝ)) (idx : ℕ)
    (hNorm h t : ℝ) (xPrev : List ℝ) (u : List (List ℝ)) (p : List ℝ)
    (u1 u2 u3 u4 u5 u6 u7 u8 u9 : List (List ℝ))
    (h1 : Integrator.get_u ct u t = Except.ok u1)
    (h2 : Integrator.get_u ct u (t + hNorm * (4 / 27)) = Except.ok u2)
    (h3 : Integrator.get_u ct u (t + hNorm * (2 / 9)) = Except.ok u3)
    (h4 : Integrator.get_u ct u (t + hNorm * (1 / 3)) = Except.ok u4)
    (h5 : Integrator.get_u ct u (t + hNorm * (1 / 2)) = Except.ok u5)
    (h6 : Integrator.get_u ct u (t + hNorm * (2 / 3)) = Except.ok u6)
    (h7 : Integrator.get_u ct u (t + hNorm * (1 / 6)) = Except.ok u7)
    (h8 : Integrator.get_u ct u (t + hNorm) = Except.ok u8)
    (h9 : Integrator.get_u ct u (t + hNorm * (5 / 6)) = Except.ok u9) :
    rk8Tableau.length = 10 ∧ rk8Tableau.Nodup ∧
    ∃ k1 k2 k3 k4 k5 k6 k7 k8 k9 k10,
      k1 = (fn xPrev u1 p).getD idx [] ∧
      k2 = (fn (vadd xPrev (vsmul (h * 4 / 27) k1)) u2 p).getD idx [] ∧
      k3 = (fn (vadd xPrev (vsmul (h / 18) (vadd k1 (vsmul 3 k2)))) u3 p).getD idx [] ∧
      k4 = (fn (vadd xPrev (vsmul (h / 12) (vadd k1 (vsmul 3 k3)))) u4 p).getD idx [] ∧
      k5 = (fn (vadd xPrev (vsmul (h / 8) (vadd k1 (vsmul 3 k4)))) u5 p).getD idx [] ∧
      k6 = (fn (vadd xPrev (vsmul (h / 54)
        (vadd (vadd (vsub (vsmul 13 k1) (vsmul 27 k3)) (vsmul 42 k4)) (vsmul 8 k5))))
        u6 p).getD idx [] ∧
      k7 = (fn (vadd xPrev (vsmul (h / 4320)
        (vadd (vsub (vadd (vsub (vsmul 389 k1) (vsmul 54 k3)) (vsmul 966 k4))
          (vsmul 824 k5)) (vsmul 243 k6)))) u7 p).getD idx [] ∧
      k8 = (fn (vadd xPrev (vsmul (h / 20)
        (vadd (vsub (vadd (vsub (vadd (vsmul (-234) k1) (vsmul 81 k3)) (vsmul 1164 k4))
          (vsmul 656 k5)) (vsmul 122 k6)) (vsmul 800 k7)))) u8 p).getD idx [] ∧
      k9 = (fn (vadd xPrev (vsmul (h / 288)
        (vadd (vadd (vsub (vadd (vsub (vadd (vsmul (-127) k1) (vsmul 18 k3))
          (vsmul 678 k4)) (vsmul 456 k5)) (vsmul 9 k6)) (vsmul 576 k7)) (vsmul 4 k8))))
        u9 p).getD idx [] ∧
      k10 = (fn (vadd xPrev (vsmul (h / 820)
        (vadd (vsub (vsub (vadd (vsub (vadd (vsub (vsmul 1481 k1) (vsmul 81 k3))
          (vsmul 7104 k4)) (vsmul 3376 k5)) (vsmul 72 k6)) (vsmul 5040 k7))
          (vsmul 60 k8)) (vsmul 720 k9)))) u8 p).getD idx [] ∧
      RK8.next_x ct fn idx hNorm h t xPrev u p =
        Except.ok (vadd xPrev (vsmul (h / 840)
          (vadd (vadd (vadd (vadd (vadd (vadd (vsmul 41 k1) (vsmul 27 k4))
            (vsmul 272 k5)) (vsmul 27 k6)) (vsmul 216 k7)) (vsmul 216 k9))
            (vsmul 41 k10)))) := by
  refine ⟨by decide, by decide,
    ⟨_, _, _, _, _, _, _, _, _, _, rfl, rfl, rfl, rfl, rfl, rfl, rfl, rfl, rfl, rfl, ?_⟩⟩
  simp only [one_div] at h4 h5 h7
  simp [RK8.next_x, h1, h2, h3, h4, h5, h6, h7, h8, h9, Except.bind, Bind.bind, pure,
    Except.pure]

/-- Witness for C5 at concrete inputs. -/
theorem C5_rk8_substep_witness :
    rk8Tableau.length = 10 ∧ rk8Tableau.Nodup ∧
    ∃ k1 k2 k3 k4 k5 k6 k7 k8 k9 k10,
      k1 = (fnNil [] [] []).getD 0 [] ∧
      k2 = (fnNil (vadd [] (vsmul ((1:ℝ) * 4 / 27) k1)) [] []).getD 0 [] ∧
      k3 = (fnNil (vadd [] (vsmul ((1:ℝ) / 18) (vadd k1 (vsmul 3 k2)))) [] []).getD 0 [] ∧
      k4 = (fnNil (vadd [] (vsmul ((1:ℝ) / 12) (vadd k1 (vsmul 3 k3)))) [] []).getD 0 [] ∧
      k5 = (fnNil (vadd [] (vsmul ((1:ℝ) / 8) (vadd k1 (vsmul 3 k4)))) [] []).getD 0 [] ∧
      k6 = (fnNil (vadd [] (vsmul ((1:ℝ) / 54)
        (vadd (vadd (vsub (vsmul 13 k1) (vsmul 27 k3)) (vsmul 42 k4)) (vsmul 8 k5))))
        [] []).getD 0 [] ∧
      k7 = (fnNil (vadd [] (vsmul ((1:ℝ) / 4320)
        (vadd (vsub (vadd (vsub (vsmul 389 k1) (vsmul 54 k3)) (vsmul 966 k4))
          (vsmul 824 k5)) (vsmul 243 k6)))) [] []).getD 0 [] ∧
      k8 = (fnNil (vadd [] (vsmul ((1:ℝ) / 20)
        (vadd (vsub (vadd (vsub (vadd (vsmul (-234) k1) (vsmul 81 k3)) (vsmul 1164 k4))
          (vsmul 656 k5)) (vsmul 122 k6)) (vsmul 800 k7)))) [] []).getD 0 [] ∧
      k9 = (fnNil (vadd [] (vsmul ((1:ℝ) / 288)
        (vadd (vadd (vsub (vadd (vsub (vadd (vsmul (-127) k1) (vsmul 18 k3))
          (vsmul 678 k4)) (vsmul 456 k5)) (vsmul 9 k6)) (vsmul 576 k7)) (vsmul 4 k8))))
        [] []).getD 0 [] ∧
      k10 = (fnNil (vadd [] (vsmul ((1:ℝ) / 820)
        (vadd (vsub (vsub (vadd (vsub (vadd (vsub (vsmul 1481 k1) (vsmul 81 k3))
          (vsmul 7104 k4)) (vsmul 3376 k5)) (vsmul 72 k6)) (vsmul 5040 k7))
          (vsmul 60 k8)) (vsmul 720 k9)))) [] []).getD 0 [] ∧
      RK8.next_x ControlType.CONSTANT fnNil 0 1 1 0 [] [] [] =
        Except.ok (vadd [] (vsmul ((1:ℝ) / 840)
          (vadd (vadd (vadd (vadd (vadd (vadd (vsmul 41 k1) (vsmul 27 k4))
            (vsmul 272 k5)) (vsmul 27 k6)) (vsmul 216 k7)) (vsmul 216 k9))
            (vsmul 41 k10)))) :=
  C5_rk8_substep ControlType.CONSTANT fnNil 0 1 1 0 [] [] [] [] [] [] [] [] [] [] [] []
    rfl rfl rfl rfl rfl rfl rfl rfl rfl

/-- For degree 1 the unique Gauss-Legendre collocation point is 1/2. -/
theorem legendre_points_deg_one : IsLegendreCollocationPoints 1 [(1:ℝ)/2] := by
  refine ⟨rfl, by simp, ?_⟩
  intro t ht
  simp only [List.mem_singleton] at ht
  subst ht
  refine ⟨by norm_num, by norm_num, ?_⟩
  have hsl : shiftedLegendre 1 =
      Polynomial.derivative (Polynomial.X * (Polynomial.X - 1)) := by
    simp [shiftedLegendre]
  rw [hsl]
  simp [Polynomial.derivative_mul]
  norm_num

/-- Conversely, any list satisfying the degree-1 collocation contract is [1/2]. -/
theorem legendre_points_deg_one_unique (pts : List ℝ)
    (hp : IsLegendreCollocationPoints 1 pts) : pts = [(1:ℝ)/2] := by
  obtain ⟨hlen, -, hmem⟩ := hp
  cases pts with
  | nil => simp at hlen
  | cons a rest =>
    cases rest with
    | cons b rest2 => simp at hlen
    | nil =>
      obtain ⟨-, -, hroot⟩ := hmem a (by simp)
      have hsl : shiftedLegendre 1 =
          Polynomial.derivative (Polynomial.X * (Polynomial.X - 1)) := by
        simp [shiftedLegendre]
      rw [hsl] at hroot
      simp [Polynomial.derivative_mul] at hroot
      have : a = 1/2 := by linarith
      rw [this]

/-- C3 counterexample: with degree 1, the tableau's collocation time points are
[0, 1/2] (the Legendre root 1/2 is forced by the collocation contract), so the 1st
collocation point is t_1 = 1/2, but IRK.dxdt samples the control of the first
collocation equation at t_norm_init = (1 - 1)/1 = 0, which differs from t_1. -/
theorem C3_counterexample_control_time :
    IsLegendreCollocationPoints 1 [(1:ℝ)/2] ∧
    (∀ pts, IsLegendreCollocationPoints 1 pts → pts = [(1:ℝ)/2]) ∧
    ((0:ℝ) :: [(1:ℝ)/2]).getD 1 0 = 1/2 ∧
    IRK.controlTime 1 1 = 0 ∧
    (0:ℝ) ≠ 1/2 := by
  refine ⟨legendre_points_deg_one, legendre_points_deg_one_unique, rfl, ?_, by norm_num⟩
  simp [IRK.controlTime]

/-- Helper: mapping a constant function over a range' index list. -/
theorem map_const_range' (s n : ℕ) (u : List (List ℝ)) :
    (List.range' s n).map (fun _ => u) = List.replicate n u := by
  induction n generalizing s with
  | zero => rfl
  | succ m ih => rw [List.range'_succ, List.map_cons, ih, List.replicate_succ]

/-- Helper: the mapM accumulator loop of a function that always succeeds with the
same value. -/
theorem mapM_loop_const {α β : Type} (b : β) :
    ∀ (l : List α) (acc : List β),
      List.mapM.loop (fun _ => (Except.ok b : Except PyError β)) l acc =
        Except.ok (acc.reverse ++ l.map (fun _ => b)) := by
  intro l
  induction l with
  | nil => intro acc; simp [List.mapM.loop, pure, Except.pure]
  | cons a rest ih =>
    intro acc
    simp [List.mapM.loop, Except.bind, Bind.bind, ih (b :: acc)]

/-- Helper: mapM of a function that always succeeds with the same value. -/
theorem mapM_const_ok {α β : Type} (l : List α) (b : β) :
    l.mapM (fun _ => (Except.ok b : Except PyError β)) =
      Except.ok (l.map (fun _ => b)) := by
  have := mapM_loop_const b l []
  simpa [List.mapM] using this

/-- C3 amended: the control used for the j-th collocation residual equation is
sampled at the normalized time (j - 1) / degree, not at the j-th collocation time
point of the tableau; under the CONSTANT control type — the only one the implicit
integrator supports — the sampled control of every equation is the control matrix u
itself. -/
theorem C3_amended_control_sampling (degree : ℕ) (u : List (List ℝ))
    (j : ℕ) (hj1 : 1 ≤ j) (hj2 : j ≤ degree) :
    IRK.controlTime degree j = ((j : ℝ) - 1) / (degree : ℝ) ∧
    IRK.get_u ControlType.CONSTANT u (IRK.controlTime degree j) = Except.ok u ∧
    IRK.sampledControls degree ControlType.CONSTANT u =
      Except.ok (List.replicate degree u) := by
  refine ⟨rfl, rfl, ?_⟩
  have hfun : (fun i => IRK.get_u ControlType.CONSTANT u (IRK.controlTime degree i)) =
      (fun _ : ℕ => (Except.ok u : Except PyError (List (List ℝ)))) := rfl
  rw [IRK.sampledControls, hfun, mapM_const_ok, map_const_range']

/-- Witness for the amended C3 at degree 1. -/
theorem C3_amended_control_sampling_witness :
    IRK.controlTime 1 1 = (((1:ℕ) : ℝ) - 1) / ((1:ℕ) : ℝ) ∧
    IRK.get_u ControlType.CONSTANT [[(2:ℝ)]] (IRK.controlTime 1 1) =
      Except.ok [[(2:ℝ)]] ∧
    IRK.sampledControls 1 ControlType.CONSTANT [[(2:ℝ)]] =
      Except.ok (List.replicate 1 [[(2:ℝ)]]) :=
  C3_amended_control_sampling 1 [[(2:ℝ)]] 1 le_rfl le_rfl

/-- Helper: last element of a constant cons-replicate list. -/
theorem getLastD_cons_replicate {α : Type} (x d : α) (n : ℕ) :
    (x :: List.replicate n x).getLastD d = x := by
  induction n generalizing d with
  | zero => rfl
  | succ m ih =>
    rw [List.replicate_succ, List.getLastD_cons]
    exact ih x

/-- Helper: optional last element of a constant cons-replicate list. -/
theorem getLast?_cons_replicate {α : Type} (x : α) (n : ℕ) :
    (x :: List.replicate n x).getLast? = some x := by
  induction n with
  | zero => rfl
  | succ m ih =>
    rw [List.replicate_succ, List.getLast?_cons_cons]
    exact ih

/-- With a dynamics whose selected column is identically zero, one RK4 sub-step
returns its input state unchanged. -/
theorem rk4_next_x_zero (ct : ControlType)
    (fn : List ℝ → List (List ℝ) → List ℝ → List (List ℝ)) (idx nx : ℕ)
    (hNorm h t : ℝ) (xPrev : List ℝ) (u : List (List ℝ)) (p : List ℝ)
    (hz : ∀ x uu, (fn x uu p).getD idx [] = List.replicate nx 0)
    (hlen : xPrev.length = nx)
    (hu : ∀ s, ∃ v, Integrator.get_u ct u s = Except.ok v) :
    RK4.next_x ct fn idx hNorm h t xPrev u p = Except.ok xPrev := by
  obtain ⟨v1, e1⟩ := hu t
  obtain ⟨v2, e2⟩ := hu (t + hNorm / 2)
  obtain ⟨v4, e4⟩ := hu (t + hNorm)
  simp only [List.getD_eq_getElem?_getD] at hz
  simp [RK4.next_x, e1, e2, e4, Except.bind, Bind.bind, pure, Except.pure, hz,
    vsmul_replicate_zero, vadd_replicate_zero xPrev nx hlen, vadd_rep_rep]

/-- With a dynamics whose selected column is identically zero, one RK8 sub-step
returns its input state unchanged. -/
theorem rk8_next_x_zero (ct : ControlType)
    (fn : List ℝ → List (List ℝ) → List ℝ → List (List ℝ)) (idx nx : ℕ)
    (hNorm h t : ℝ) (xPrev : List ℝ) (u : List (List ℝ)) (p : List ℝ)
    (hz : ∀ x uu, (fn x uu p).getD idx [] = List.replicate nx 0)
    (hlen : xPrev.length = nx)
    (hu : ∀ s, ∃ v, Integrator.get_u ct u s = Except.ok v) :
    RK8.next_x ct fn idx hNorm h t xPrev u p = Except.ok xPrev := by
  obtain ⟨v1, e1⟩ := hu t
  obtain ⟨v2, e2⟩ := hu (t + hNorm * (4 / 27))
  obtain ⟨v3, e3⟩ := hu (t + hNorm * (2 / 9))
  obtain ⟨v4, e4⟩ := hu (t + hNorm * (1 / 3))
  obtain ⟨v5, e5⟩ := hu (t + hNorm * (1 / 2))
  obtain ⟨v6, e6⟩ := hu (t + hNorm * (2 / 3))
  obtain ⟨v7, e7⟩ := hu (t + hNorm * (1 / 6))
  obtain ⟨v8, e8⟩ := hu (t + hNorm)
  obtain ⟨v9, e9⟩ := hu (t + hNorm * (5 / 6))
  simp only [one_div] at e4 e5 e7
  simp only [List.getD_eq_getElem?_getD] at hz
  simp [RK8.next_x, e1, e2, e3, e4, e5, e6, e7, e8, e9, Except.bind, Bind.bind, pure,
    Except.pure, hz, vsmul_replicate_zero, vadd_replicate_zero xPrev nx hlen,
    vadd_rep_rep, vsub_rep_rep]

/-- The sub-step loop maps any state-preserving next_x over a model without
quaternion blocks to a constant trajectory. -/
theorem RK.steps_identity
    (next_x : ℝ → ℝ → List ℝ → List (List ℝ) → List ℝ → Except PyError (List ℝ))
    (nx nStep : ℕ) (h : ℝ) (u : List (List ℝ)) (p : List ℝ)
    (hid : ∀ (hh t : ℝ) (x : List ℝ), x.length = nx →
      next_x hh t x u p = Except.ok x) :
    ∀ (js : List ℕ) (xPrev : List ℝ), xPrev.length = nx →
      RK.steps next_x [] nStep h u p xPrev js =
        Except.ok (List.replicate js.length xPrev) := by
  intro js
  induction js with
  | nil => intro xPrev hx; rfl
  | cons i rest ih =>
    intro xPrev hx
    have hnext := hid h (((i : ℝ) - 1) / (nStep : ℝ)) xPrev hx
    simp [RK.steps, hnext, Except.bind, Bind.bind, pure, Except.pure, renormAll,
      ih xPrev hx, List.replicate_succ]

/-- C8: for every state vector, with no quaternion blocks in the model and an
identically zero dynamics right-hand side, both RK4 and RK8 return the input state
unchanged for every step size h and every step count, and every column of the
returned trajectory matrix equals the input state. -/
theorem C8_zero_dynamics (ct : ControlType)
    (fn : List ℝ → List (List ℝ) → List ℝ → List (List ℝ)) (idx nx : ℕ)
    (hNorm h : ℝ) (nStep : ℕ) (segs : List Segment) (nbDofTotal : ℕ)
    (states : List ℝ) (u : List (List ℝ)) (p : List ℝ)
    (hq : quatIdx nbDofTotal segs = [])
    (hz : ∀ x uu, (fn x uu p).getD idx [] = List.replicate nx 0)
    (hlen : states.length = nx)
    (hu : ∀ s, ∃ v, Integrator.get_u ct u s = Except.ok v) :
    RK.dxdt segs nbDofTotal nStep (RK4.next_x ct fn idx hNorm) h states u p =
      Except.ok (states, List.replicate (nStep + 1) states) ∧
    RK.dxdt segs nbDofTotal nStep (RK8.next_x ct fn idx hNorm) h states u p =
      Except.ok (states, List.replicate (nStep + 1) states) := by
  have h4 := RK.steps_identity (RK4.next_x ct fn idx hNorm) nx nStep h u p
    (fun hh t x hxl => rk4_next_x_zero ct fn idx nx hNorm hh t x u p hz hxl hu)
    (List.range' 1 nStep) states hlen
  have h8 := RK.steps_identity (RK8.next_x ct fn idx hNorm) nx nStep h u p
    (fun hh t x hxl => rk8_next_x_zero ct fn idx nx hNorm hh t x u p hz hxl hu)
    (List.range' 1 nStep) states hlen
  rw [List.length_range'] at h4 h8
  constructor
  · rw [RK.dxdt, hq]
    simp [h4, Except.bind, Bind.bind, pure, Except.pure, getLastD_cons_replicate,
      getLast?_cons_replicate, List.replicate_succ]
  · rw [RK.dxdt, hq]
    simp [h8, Except.bind, Bind.bind, pure, Except.pure, getLastD_cons_replicate,
      getLast?_cons_replicate, List.replicate_succ]

/-- Witness for C8 with a two-row state, a nonzero input state, h = 5 and three
sub-steps. -/
theorem C8_zero_dynamics_witness :
    RK.dxdt [] 0 3 (RK4.next_x ControlType.CONSTANT
        (fun _ _ _ => [List.replicate 2 0]) 0 (1 / 3)) 5 [(4:ℝ), -7] [] [] =
      Except.ok ([(4:ℝ), -7], List.replicate 4 [(4:ℝ), -7]) ∧
    RK.dxdt [] 0 3 (RK8.next_x ControlType.CONSTANT
        (fun _ _ _ => [List.replicate 2 0]) 0 (1 / 3)) 5 [(4:ℝ), -7] [] [] =
      Except.ok ([(4:ℝ), -7], List.replicate 4 [(4:ℝ), -7]) :=
  C8_zero_dynamics ControlType.CONSTANT (fun _ _ _ => [List.replicate 2 0]) 0 2
    (1 / 3) 5 3 [] 0 [(4:ℝ), -7] [] [] rfl (fun x uu => rfl) rfl
    (fun s => ⟨[], rfl⟩)

/-- Helper: indexing into a range' list. -/
theorem getD_range' (s n k : ℕ) (hk : k < n) : (List.range' s n).getD k 0 = s + k := by
  rw [List.getD_eq_getElem?_getD, List.getElem?_range' ]
  · simp
  · simpa using hk

/-- Renormalizing one quaternion block does not change the column length. -/
theorem renormQuat_length (c : List ℝ) (q : QuatBlock) :
    (renormQuat c q).length = c.length := by
  simp [renormQuat]

/-- Renormalizing all quaternion blocks does not change the column length. -/
theorem renormAll_length (quats : List QuatBlock) (c : List ℝ) :
    (renormAll quats c).length = c.length := by
  induction quats generalizing c with
  | nil => rfl
  | cons q rest ih =>
    rw [renormAll, List.foldl_cons]
    have := ih (renormQuat c q)
    rw [renormAll] at this
    rw [this, renormQuat_length]

/-- Structure of the sub-step loop: when it succeeds, it returns one column per
sub-step index, and the k-th returned column is the quaternion-renormalized result
of next_x applied at the k-th start time to the previous column (the input state for
the first sub-step). -/
theorem RK.steps_spec
    (next_x : ℝ → ℝ → List ℝ → List (List ℝ) → List ℝ → Except PyError (List ℝ))
    (quats : List QuatBlock) (nStep : ℕ) (h : ℝ) (u : List (List ℝ)) (p : List ℝ) :
    ∀ (js : List ℕ) (xPrev : List ℝ) (cols : List (List ℝ)),
      RK.steps next_x quats nStep h u p xPrev js = Except.ok cols →
      cols.length = js.length ∧
      ∀ k, k < js.length →
        ∃ raw, next_x h ((((js.getD k 0 : ℕ) : ℝ) - 1) / (nStep : ℝ))
            ((xPrev :: cols).getD k []) u p = Except.ok raw ∧
          cols.getD k [] = renormAll quats raw := by
  intro js
  induction js with
  | nil =>
    intro xPrev cols h0
    have : cols = [] := by
      simpa [RK.steps] using h0.symm
    subst this
    exact ⟨rfl, fun k hk => absurd hk (by simp)⟩
  | cons i rest ih =>
    intro xPrev cols h0
    cases e : next_x h ((((i : ℕ) : ℝ) - 1) / (nStep : ℝ)) xPrev u p with
    | error err =>
      rw [RK.steps] at h0
      rw [e] at h0
      simp [Except.bind, Bind.bind] at h0
    | ok xi =>
      rw [RK.steps] at h0
      rw [e] at h0
      simp only [Except.bind, Bind.bind, pure, Except.pure] at h0
      cases e2 : RK.steps next_x quats nStep h u p (renormAll quats xi) rest with
      | error err =>
        rw [e2] at h0
        simp at h0
      | ok tail =>
        rw [e2] at h0
        simp only [Except.ok.injEq] at h0
        subst h0
        obtain ⟨hlen, hspec⟩ := ih (renormAll quats xi) tail e2
        refine ⟨by simpa using hlen, ?_⟩
        intro k hk
        cases k with
        | zero => exact ⟨xi, e, rfl⟩
        | succ m =>
          have hm : m < rest.length := by simpa using hk
          obtain ⟨raw, hraw, hcol⟩ := hspec m hm
          exact ⟨raw, hraw, hcol⟩

/-- When next_x preserves the column length, every column produced by the sub-step
loop has the length of the input state. -/
theorem RK.steps_cols_length
    (next_x : ℝ → ℝ → List ℝ → List (List ℝ) → List ℝ → Except PyError (List ℝ))
    (quats : List QuatBlock) (nStep nx : ℕ) (h : ℝ) (u : List (List ℝ)) (p : List ℝ)
    (hpres : ∀ (hh t : ℝ) (x r : List ℝ), next_x hh t x u p = Except.ok r →
      r.length = x.length) :
    ∀ (js : List ℕ) (xPrev : List ℝ) (cols : List (List ℝ)),
      RK.steps next_x quats nStep h u p xPrev js = Except.ok cols →
      xPrev.length = nx → ∀ c ∈ cols, c.length = nx := by
  intro js
  induction js with
  | nil =>
    intro xPrev cols h0 hx
    have : cols = [] := by simpa [RK.steps] using h0.symm
    subst this
    intro c hc
    simp at hc
  | cons i rest ih =>
    intro xPrev cols h0 hx
    cases e : next_x h ((((i : ℕ) : ℝ) - 1) / (nStep : ℝ)) xPrev u p with
    | error err =>
      rw [RK.steps] at h0
      rw [e] at h0
      simp [Except.bind, Bind.bind] at h0
    | ok xi =>
      rw [RK.steps] at h0
      rw [e] at h0
      simp only [Except.bind, Bind.bind, pure, Except.pure] at h0
      cases e2 : RK.steps next_x quats nStep h u p (renormAll quats xi) rest with
      | error err =>
        rw [e2] at h0
        simp at h0
      | ok tail =>
        rw [e2] at h0
        simp only [Except.ok.injEq] at h0
        subst h0
        have hxi : xi.length = nx := (hpres _ _ _ _ e).trans hx
        have hxc : (renormAll quats xi).length = nx := by
          rw [renormAll_length]; exact hxi
        intro c hc
        rcases List.mem_cons.mp hc with hc1 | hc2
        · rw [hc1]; exact hxc
        · exact ih (renormAll quats xi) tail e2 hxc c hc2

/-- C9: the explicit integrators return (last trajectory column, trajectory); the
trajectory has n_steps + 1 columns each of the state dimension, column 0 is the
finite-element input state, column i (1 <= i <= n_steps) is the renormalized result
of the i-th sub-step started at normalized time (i - 1) / n_steps from column i - 1,
and the returned output state is the last column.  The implicit integrator instead
returns the two-column trajectory [x0, xf]. -/
theorem C9_trajectory_structure
    (segs : List Segment) (nbDofTotal nStep nx : ℕ)
    (next_x : ℝ → ℝ → List ℝ → List (List ℝ) → List ℝ → Except PyError (List ℝ))
    (h : ℝ) (states : List ℝ) (u : List (List ℝ)) (p : List ℝ)
    (xf : List ℝ) (xall : List (List ℝ))
    (hok : RK.dxdt segs nbDofTotal nStep next_x h states u p = Except.ok (xf, xall))
    (hlen : states.length = nx)
    (hpres : ∀ (hh t : ℝ) (x r : List ℝ), next_x hh t x u p = Except.ok r →
      r.length = x.length) :
    xall.length = nStep + 1 ∧
    xall.getD 0 [] = states ∧
    xf = xall.getLastD [] ∧
    (∀ c ∈ xall, c.length = nx) ∧
    (∀ i, 1 ≤ i → i ≤ nStep →
      ∃ raw, next_x h (((i : ℝ) - 1) / (nStep : ℝ)) (xall.getD (i - 1) []) u p =
          Except.ok raw ∧
        xall.getD i [] = renormAll (quatIdx nbDofTotal segs) raw) ∧
    (∀ (degree nx2 idx : ℕ) (ct : ControlType) (pts : List ℝ)
        (fn : List ℝ → List (List ℝ) → List ℝ → List (List ℝ))
        (solver : (List (List ℝ) → List (List ℝ)) → List (List ℝ)) (hh : ℝ)
        (x0 : List ℝ) (uu : List (List ℝ)) (params : List ℝ)
        (xf2 : List ℝ) (xall2 : List (List ℝ)),
      IRK.dxdt degree nx2 idx ct pts fn solver hh x0 uu params =
        Except.ok (xf2, xall2) → xall2 = [x0, xf2]) := by
  rw [RK.dxdt] at hok
  simp only [Except.bind, Bind.bind, pure, Except.pure] at hok
  cases e : RK.steps next_x (quatIdx nbDofTotal segs) nStep h u p states
      (List.range' 1 nStep) with
  | error err =>
    rw [e] at hok
    simp at hok
  | ok cols =>
    rw [e] at hok
    simp only [Except.ok.injEq, Prod.mk.injEq] at hok
    obtain ⟨hxf, hxall⟩ := hok
    obtain ⟨hclen, hspec⟩ := RK.steps_spec next_x (quatIdx nbDofTotal segs) nStep h u p
      (List.range' 1 nStep) states cols e
    rw [List.length_range'] at hclen
    have hcolslen : ∀ c ∈ cols, c.length = nx :=
      RK.steps_cols_length next_x (quatIdx nbDofTotal segs) nStep nx h u p hpres
        (List.range' 1 nStep) states cols e hlen
    subst hxall
    refine ⟨by simp [hclen], rfl, hxf.symm, ?_, ?_, ?_⟩
    · intro c hc
      rcases List.mem_cons.mp hc with hc1 | hc2
      · rw [hc1]; exact hlen
      · exact hcolslen c hc2
    · intro i hi1 hi2
      have hk : i - 1 < (List.range' 1 nStep).length := by
        rw [List.length_range']; omega
      obtain ⟨raw, hraw, hcol⟩ := hspec (i - 1) (by rw [List.length_range'] at hk ⊢; omega)
      have hidx : (List.range' 1 nStep).getD (i - 1) 0 = i := by
        rw [getD_range' 1 nStep (i - 1) (by omega)]; omega
      rw [hidx] at hraw
      refine ⟨raw, ?_, ?_⟩
      · have hprev : ((states :: cols).getD (i - 1) []) = (states :: cols).getD (i - 1) [] := rfl
        exact hraw
      · have : (states :: cols).getD i [] = cols.getD (i - 1) [] := by
          cases i with
          | zero => omega
          | succ m => simp
        rw [this]
        exact hcol
    · intro degree nx2 idx ct pts fn solver hh x0 uu params xf2 xall2 hirk
      rw [IRK.dxdt] at hirk
      simp only [Except.bind, Bind.bind, pure, Except.pure] at hirk
      cases e3 : IRK.sampledControls degree ct uu with
      | error err =>
        rw [e3] at hirk
        simp at hirk
      | ok us =>
        rw [e3] at hirk
        simp only [Except.ok.injEq, Prod.mk.injEq] at hirk
        obtain ⟨h1, h2⟩ := hirk
        rw [← h2, h1]

/-- Witness for C9 with one sub-step, an identity next_x and a one-row state. -/
theorem C9_trajectory_structure_witness :
    ([[(1:ℝ)], [(1:ℝ)]] : List (List ℝ)).length = 1 + 1 ∧
    ([[(1:ℝ)], [(1:ℝ)]] : List (List ℝ)).getD 0 [] = [(1:ℝ)] ∧
    [(1:ℝ)] = ([[(1:ℝ)], [(1:ℝ)]] : List (List ℝ)).getLastD [] ∧
    (∀ c ∈ ([[(1:ℝ)], [(1:ℝ)]] : List (List ℝ)), c.length = 1) ∧
    (∀ (i : ℕ), 1 ≤ i → i ≤ 1 →
      ∃ raw, (fun (_ _ : ℝ) (x : List ℝ) (_ : List (List ℝ)) (_ : List ℝ) =>
          (Except.ok x : Except PyError (List ℝ))) 2 (((i : ℝ) - 1) / ((1:ℕ) : ℝ))
          (([[(1:ℝ)], [(1:ℝ)]] : List (List ℝ)).getD (i - 1) []) [] [] =
            Except.ok raw ∧
        ([[(1:ℝ)], [(1:ℝ)]] : List (List ℝ)).getD i [] = renormAll (quatIdx 0 []) raw) ∧
    (∀ (degree nx2 idx : ℕ) (ct : ControlType) (pts : List ℝ)
        (fn : List ℝ → List (List ℝ) → List ℝ → List (List ℝ))
        (solver : (List (List ℝ) → List (List ℝ)) → List (List ℝ)) (hh : ℝ)
        (x0 : List ℝ) (uu : List (List ℝ)) (params : List ℝ)
        (xf2 : List ℝ) (xall2 : List (List ℝ)),
      IRK.dxdt degree nx2 idx ct pts fn solver hh x0 uu params =
        Except.ok (xf2, xall2) → xall2 = [x0, xf2]) :=
  C9_trajectory_structure [] 0 1 1
    (fun _ _ x _ _ => (Except.ok x : Except PyError (List ℝ))) 2 [(1:ℝ)] [] []
    [(1:ℝ)] [[(1:ℝ)], [(1:ℝ)]] rfl rfl
    (fun hh t x r he => by cases he; rfl)

/-- Unpacking of block well-formedness into pairwise index inequalities. -/
theorem QuatBlock.wellFormed_iff (q : QuatBlock) :
    q.WellFormed ↔ q.i0 ≠ q.i1 ∧ q.i0 ≠ q.i2 ∧ q.i0 ≠ q.i3 ∧
      q.i1 ≠ q.i2 ∧ q.i1 ≠ q.i3 ∧ q.i2 ≠ q.i3 := by
  simp only [QuatBlock.WellFormed, QuatBlock.indices, List.nodup_cons, List.mem_cons,
    List.mem_singleton, not_or, List.nodup_nil, and_true, List.not_mem_nil,
    not_false_iff]
  tauto

/-- The squared block norm is a sum of squares, hence nonnegative. -/
theorem quatNormSq_nonneg (c : List ℝ) (q : QuatBlock) : 0 ≤ quatNormSq c q := by
  unfold quatNormSq
  positivity

/-- The squared block norm vanishes exactly when the assembled 4-vector is zero. -/
theorem quatNormSq_eq_zero_iff (c : List ℝ) (q : QuatBlock) :
    quatNormSq c q = 0 ↔
      c.getD q.i3 0 = 0 ∧ c.getD q.i0 0 = 0 ∧ c.getD q.i1 0 = 0 ∧ c.getD q.i2 0 = 0 := by
  unfold quatNormSq
  constructor
  · intro h0
    refine ⟨?_, ?_, ?_, ?_⟩ <;>
      [skip; skip; skip; skip] <;>
      nlinarith [sq_nonneg (c.getD q.i3 0), sq_nonneg (c.getD q.i0 0),
        sq_nonneg (c.getD q.i1 0), sq_nonneg (c.getD q.i2 0)]
  · intro ⟨h3, h0, h1, h2⟩
    rw [h3, h0, h1, h2]
    ring

/-- The renormalization divisor vanishes exactly when the squared norm does. -/
theorem quatDivisor_eq_zero_iff (c : List ℝ) (q : QuatBlock) :
    quatDivisor c q = 0 ↔ quatNormSq c q = 0 := by
  unfold quatDivisor
  rw [Real.sqrt_eq_zero (quatNormSq_nonneg c q)]

/-- The four reads of the renormalized column at the block's own indices. -/
theorem renormQuat_getD (c : List ℝ) (q : QuatBlock)
    (hwf : q.WellFormed) (hb : q.InBounds c.length) :
    (renormQuat c q).getD q.i3 0 = c.getD q.i3 0 / quatDivisor c q ∧
    (renormQuat c q).getD q.i0 0 = c.getD q.i0 0 / quatDivisor c q ∧
    (renormQuat c q).getD q.i1 0 = c.getD q.i1 0 / quatDivisor c q ∧
    (renormQuat c q).getD q.i2 0 = c.getD q.i2 0 / quatDivisor c q := by
  obtain ⟨h01, h02, h03, h12, h13, h23⟩ := (QuatBlock.wellFormed_iff q).mp hwf
  obtain ⟨hb0, hb1, hb2, hb3⟩ := hb
  unfold renormQuat
  refine ⟨?_, ?_, ?_, ?_⟩
  · exact getD_set_self _ _ _ (by simpa using hb3)
  · rw [getD_set_ne _ _ _ _ (Ne.symm h03), getD_set_ne _ _ _ _ (Ne.symm h02),
      getD_set_ne _ _ _ _ (Ne.symm h01)]
    exact getD_set_self _ _ _ hb0
  · rw [getD_set_ne _ _ _ _ (Ne.symm h13), getD_set_ne _ _ _ _ (Ne.symm h12)]
    exact getD_set_self _ _ _ (by simpa using hb1)
  · rw [getD_set_ne _ _ _ _ (Ne.symm h23)]
    exact getD_set_self _ _ _ (by simpa using hb2)

/-- Renormalizing a well-formed in-bounds block with nonzero squared norm produces a
block of squared norm exactly 1. -/
theorem renormQuat_normSq_one (c : List ℝ) (q : QuatBlock)
    (hwf : q.WellFormed) (hb : q.InBounds c.length)
    (hnz : quatNormSq c q ≠ 0) :
    quatNormSq (renormQuat c q) q = 1 := by
  obtain ⟨r3, r0, r1, r2⟩ := renormQuat_getD c q hwf hb
  have hS : 0 ≤ quatNormSq c q := quatNormSq_nonneg c q
  have hs2 : quatDivisor c q ^ 2 = quatNormSq c q := Real.sq_sqrt hS
  have hgoal : quatNormSq (renormQuat c q) q =
      (c.getD q.i3 0 / quatDivisor c q) ^ 2 + (c.getD q.i0 0 / quatDivisor c q) ^ 2 +
      (c.getD q.i1 0 / quatDivisor c q) ^ 2 + (c.getD q.i2 0 / quatDivisor c q) ^ 2 := by
    rw [quatNormSq, r3, r0, r1, r2]
  have key : (c.getD q.i3 0 / quatDivisor c q) ^ 2 + (c.getD q.i0 0 / quatDivisor c q) ^ 2 +
      (c.getD q.i1 0 / quatDivisor c q) ^ 2 + (c.getD q.i2 0 / quatDivisor c q) ^ 2 =
      quatNormSq c q / quatDivisor c q ^ 2 := by
    rw [quatNormSq]
    ring
  rw [hgoal, key, hs2, div_self hnz]

/-- Reads outside the written block indices are unchanged by renormQuat. -/
theorem renormQuat_getD_outside (c : List ℝ) (q : QuatBlock) (j : ℕ)
    (hj : j ∉ q.indices) :
    (renormQuat c q).getD j 0 = c.getD j 0 := by
  simp only [QuatBlock.indices, List.mem_cons, List.mem_singleton, not_or,
    List.not_mem_nil] at hj
  obtain ⟨hj0, hj1, hj2, hj3, -⟩ := hj
  unfold renormQuat
  rw [getD_set_ne _ _ _ _ (fun h => hj3 h.symm), getD_set_ne _ _ _ _ (fun h => hj2 h.symm),
    getD_set_ne _ _ _ _ (fun h => hj1 h.symm), getD_set_ne _ _ _ _ (fun h => hj0 h.symm)]

/-- A renormalization of a block whose writes avoid the reads of p leaves the
squared norm at p unchanged. -/
theorem renormQuat_normSq_other (c : List ℝ) (q p : QuatBlock)
    (hd : q.DisjointFrom p) :
    quatNormSq (renormQuat c q) p = quatNormSq c p := by
  have h0 : p.i0 ∉ q.indices := fun hmem => hd p.i0 hmem (by simp [QuatBlock.indices])
  have h1 : p.i1 ∉ q.indices := fun hmem => hd p.i1 hmem (by simp [QuatBlock.indices])
  have h2 : p.i2 ∉ q.indices := fun hmem => hd p.i2 hmem (by simp [QuatBlock.indices])
  have h3 : p.i3 ∉ q.indices := fun hmem => hd p.i3 hmem (by simp [QuatBlock.indices])
  rw [quatNormSq, quatNormSq, renormQuat_getD_outside c q p.i3 h3,
    renormQuat_getD_outside c q p.i0 h0, renormQuat_getD_outside c q p.i1 h1,
    renormQuat_getD_outside c q p.i2 h2]

/-- Helper: getLastD as indexing at the last position. -/
theorem getLastD_eq_getD_pred {α : Type} (l : List α) (d : α) :
    l.getLastD d = l.getD (l.length - 1) d := by
  rw [List.getLastD_eq_getLast?, List.getLast?_eq_getElem?, ← List.getD_eq_getElem?_getD]

/-- Once a block has unit squared norm, further renormalizations at the same block or
at blocks whose writes avoid it keep its squared norm at 1. -/
theorem renormAll_preserves_one (q : QuatBlock) :
    ∀ (js : List QuatBlock) (c : List ℝ),
      (∀ p ∈ js, p = q ∨ p.DisjointFrom q) →
      q.WellFormed → q.InBounds c.length →
      quatNormSq c q = 1 →
      quatNormSq (renormAll js c) q = 1 := by
  intro js
  induction js with
  | nil => intro c _ _ _ h1; exact h1
  | cons p rest ih =>
    intro c hdisj hwf hb h1
    rw [renormAll, List.foldl_cons]
    have hstep : quatNormSq (renormQuat c p) q = 1 := by
      rcases hdisj p (List.mem_cons_self p rest) with heq | hd
      · subst heq
        exact renormQuat_normSq_one c p hwf hb (by rw [h1]; norm_num)
      · rw [renormQuat_normSq_other c p q hd]; exact h1
    have hb2 : q.InBounds (renormQuat c p).length := by
      rw [renormQuat_length]; exact hb
    have := ih (renormQuat c p) (fun r hr => hdisj r (List.mem_cons_of_mem p hr))
      hwf hb2 hstep
    rw [renormAll] at this
    exact this

/-- Folding the renormalization over a block list containing q (all of whose other
members write only outside q) leaves q with squared norm exactly 1, provided the
4-vector at q was nonzero beforehand. -/
theorem renormAll_normSq_one (q : QuatBlock) :
    ∀ (js : List QuatBlock) (c : List ℝ),
      q ∈ js →
      (∀ p ∈ js, p = q ∨ p.DisjointFrom q) →
      q.WellFormed → q.InBounds c.length →
      quatNormSq c q ≠ 0 →
      quatNormSq (renormAll js c) q = 1 := by
  intro js
  induction js with
  | nil => intro c hq; simp at hq
  | cons p rest ih =>
    intro c hq hdisj hwf hb hnz
    rw [renormAll, List.foldl_cons]
    have hb2 : q.InBounds (renormQuat c p).length := by
      rw [renormQuat_length]; exact hb
    by_cases hpq : p = q
    · subst hpq
      have h1 : quatNormSq (renormQuat c p) p = 1 :=
        renormQuat_normSq_one c p hwf hb hnz
      have := renormAll_preserves_one p rest (renormQuat c p)
        (fun r hr => hdisj r (List.mem_cons_of_mem p hr)) hwf hb2 h1
      rw [renormAll] at this
      exact this
    · rcases hdisj p (List.mem_cons_self p rest) with heq | hd
      · exact absurd heq hpq
      · have hqrest : q ∈ rest := by
          rcases List.mem_cons.mp hq with h | h
          · exact absurd h.symm hpq
          · exact h
        have hnz2 : quatNormSq (renormQuat c p) q ≠ 0 := by
          rw [renormQuat_normSq_other c p q hd]; exact hnz
        have := ih (renormQuat c p) hqrest
          (fun r hr => hdisj r (List.mem_cons_of_mem p hr)) hwf hb2 hnz2
        rw [renormAll] at this
        exact this

/-- C1: whenever the explicit finite element succeeds, every trajectory column i
with 1 <= i <= n_steps (in particular the output column i = n_steps, which equals
xf) is the in-place quaternion renormalization of the raw Runge-Kutta update raw,
and each well-formed, in-bounds quaternion block whose raw 4-vector is nonzero and
which the other blocks do not overlap carries Euclidean norm exactly 1 in that
column — regardless of the norm of the input quaternion. -/
theorem C1_quaternion_renormalization
    (segs : List Segment) (nbDofTotal nStep : ℕ)
    (next_x : ℝ → ℝ → List ℝ → List (List ℝ) → List ℝ → Except PyError (List ℝ))
    (h : ℝ) (states : List ℝ) (u : List (List ℝ)) (p : List ℝ)
    (xf : List ℝ) (xall : List (List ℝ))
    (hok : RK.dxdt segs nbDofTotal nStep next_x h states u p = Except.ok (xf, xall))
    (i : ℕ) (hi1 : 1 ≤ i) (hi2 : i ≤ nStep) :
    xf = xall.getD nStep [] ∧
    ∃ raw, xall.getD i [] = renormAll (quatIdx nbDofTotal segs) raw ∧
      ∀ q ∈ quatIdx nbDofTotal segs, q.WellFormed → q.InBounds raw.length →
        (∀ p2 ∈ quatIdx nbDofTotal segs, p2 = q ∨ p2.DisjointFrom q) →
        quatNormSq raw q ≠ 0 →
        Real.sqrt (quatNormSq (xall.getD i []) q) = 1 := by
  rw [RK.dxdt] at hok
  simp only [Except.bind, Bind.bind, pure, Except.pure] at hok
  cases e : RK.steps next_x (quatIdx nbDofTotal segs) nStep h u p states
      (List.range' 1 nStep) with
  | error err =>
    rw [e] at hok
    simp at hok
  | ok cols =>
    rw [e] at hok
    simp only [Except.ok.injEq, Prod.mk.injEq] at hok
    obtain ⟨hxf, hxall⟩ := hok
    obtain ⟨hclen, hspec⟩ := RK.steps_spec next_x (quatIdx nbDofTotal segs) nStep h u p
      (List.range' 1 nStep) states cols e
    rw [List.length_range'] at hclen
    subst hxall
    constructor
    · rw [← hxf, getLastD_eq_getD_pred]
      simp [hclen]
    · obtain ⟨raw, hraw, hcol⟩ := hspec (i - 1) (by rw [List.length_range']; omega)
      have hgeti : (states :: cols).getD i [] = cols.getD (i - 1) [] := by
        cases i with
        | zero => omega
        | succ m => simp
      refine ⟨raw, by rw [hgeti]; exact hcol, ?_⟩
      intro q hq hwf hbq hdisj hnz
      rw [hgeti, hcol]
      rw [renormAll_normSq_one q (quatIdx nbDofTotal segs) raw hq hdisj hwf hbq hnz]
      exact Real.sqrt_one

/-- Witness for C1: one quaternion segment, one sub-step, a non-unit input
quaternion and a raw update (0, 0, 0, 2) of norm 2, renormalized to norm 1. -/
theorem C1_quaternion_renormalization_witness :
    [(0:ℝ), 0, 0, 1] = ([[(5:ℝ), 5, 5, 5], [0, 0, 0, 1]] : List (List ℝ)).getD 1 [] ∧
    ∃ raw, ([[(5:ℝ), 5, 5, 5], [0, 0, 0, 1]] : List (List ℝ)).getD 1 [] =
        renormAll (quatIdx 3 [⟨true, 4⟩]) raw ∧
      ∀ q ∈ quatIdx 3 [⟨true, 4⟩], q.WellFormed → q.InBounds raw.length →
        (∀ p2 ∈ quatIdx 3 [⟨true, 4⟩], p2 = q ∨ p2.DisjointFrom q) →
        quatNormSq raw q ≠ 0 →
        Real.sqrt (quatNormSq
          (([[(5:ℝ), 5, 5, 5], [0, 0, 0, 1]] : List (List ℝ)).getD 1 []) q) = 1 := by
  have hs : Real.sqrt ((2:ℝ) ^ 2 + 0 ^ 2 + 0 ^ 2 + 0 ^ 2) = 2 := by
    rw [show (2:ℝ) ^ 2 + 0 ^ 2 + 0 ^ 2 + 0 ^ 2 = 2 ^ 2 by norm_num,
      Real.sqrt_sq (by norm_num : (0:ℝ) ≤ 2)]
  have hren : renormQuat [(0:ℝ), 0, 0, 2] ⟨0, 1, 2, 3⟩ = [(0:ℝ), 0, 0, 1] := by
    simp [renormQuat, quatNormSq, quatDivisor, hs]
  have hok : RK.dxdt [⟨true, 4⟩] 3 1
      (fun _ _ _ _ _ => (Except.ok [(0:ℝ), 0, 0, 2] : Except PyError (List ℝ))) 1
      [(5:ℝ), 5, 5, 5] [] [] =
      Except.ok ([(0:ℝ), 0, 0, 1], [[(5:ℝ), 5, 5, 5], [0, 0, 0, 1]]) := by
    simp [RK.dxdt, RK.steps, Except.bind, Bind.bind, pure, Except.pure, quatIdx,
      quatIdxAux, renormAll, hren]
  exact C1_quaternion_renormalization [⟨true, 4⟩] 3 1
    (fun _ _ _ _ _ => (Except.ok [(0:ℝ), 0, 0, 2] : Except PyError (List ℝ))) 1
    [(5:ℝ), 5, 5, 5] [] [] [(0:ℝ), 0, 0, 1] [[(5:ℝ), 5, 5, 5], [0, 0, 0, 1]]
    hok 1 le_rfl le_rfl

/-- C10: the quaternion renormalization divides by norm_fro with no guard against a
zero norm.  The divisor vanishes exactly when the assembled 4-vector is the zero
vector; when the 4-vector is nonzero the division is well defined and the error
branch unreachable (the renormalized block has unit squared norm), and for a zero
4-vector the division is a division by zero (in the real-number model every written
block entry becomes 0, so the block stays at squared norm 0, not 1). -/
theorem C10_no_zero_guard (c : List ℝ) (q : QuatBlock)
    (hwf : q.WellFormed) (hb : q.InBounds c.length) :
    (quatDivisor c q = 0 ↔
      c.getD q.i3 0 = 0 ∧ c.getD q.i0 0 = 0 ∧ c.getD q.i1 0 = 0 ∧ c.getD q.i2 0 = 0) ∧
    (quatNormSq c q ≠ 0 → quatNormSq (renormQuat c q) q = 1) ∧
    (quatNormSq c q = 0 → quatNormSq (renormQuat c q) q = 0) := by
  refine ⟨?_, fun hnz => renormQuat_normSq_one c q hwf hb hnz, ?_⟩
  · rw [quatDivisor_eq_zero_iff, quatNormSq_eq_zero_iff]
  · intro h0
    obtain ⟨r3, r0, r1, r2⟩ := renormQuat_getD c q hwf hb
    obtain ⟨h3, ha, hb1, hd⟩ := (quatNormSq_eq_zero_iff c q).mp h0
    rw [quatNormSq, r3, r0, r1, r2, h3, ha, hb1, hd]
    norm_num

/-- Witness for C10 at a concrete column and block. -/
theorem C10_no_zero_guard_witness :
    (quatDivisor [(1:ℝ), 0, 0, 0] ⟨0, 1, 2, 3⟩ = 0 ↔
      ([(1:ℝ), 0, 0, 0].getD 3 0 = 0 ∧ [(1:ℝ), 0, 0, 0].getD 0 0 = 0 ∧
       [(1:ℝ), 0, 0, 0].getD 1 0 = 0 ∧ [(1:ℝ), 0, 0, 0].getD 2 0 = 0)) ∧
    (quatNormSq [(1:ℝ), 0, 0, 0] ⟨0, 1, 2, 3⟩ ≠ 0 →
      quatNormSq (renormQuat [(1:ℝ), 0, 0, 0] ⟨0, 1, 2, 3⟩) ⟨0, 1, 2, 3⟩ = 1) ∧
    (quatNormSq [(1:ℝ), 0, 0, 0] ⟨0, 1, 2, 3⟩ = 0 →
      quatNormSq (renormQuat [(1:ℝ), 0, 0, 0] ⟨0, 1, 2, 3⟩) ⟨0, 1, 2, 3⟩ = 0) :=
  C10_no_zero_guard [(1:ℝ), 0, 0, 0] ⟨0, 1, 2, 3⟩
    (by unfold QuatBlock.WellFormed QuatBlock.indices; decide)
    (by unfold QuatBlock.InBounds; simp)

/-- Helper: an in-bounds getD entry is a member of the list. -/
theorem getD_mem_of_lt {α : Type} (l : List α) (d : α) (r : ℕ) (h : r < l.length) :
    l.getD r d ∈ l := by
  rw [List.getD_eq_getElem?_getD, List.getElem?_eq_getElem h]
  exact List.getElem_mem _

/-- Helper: getD through a map over a range' list. -/
theorem getD_map_range' (s n : ℕ) (f : ℕ → List ℝ) (j : ℕ) (hj : j < n) :
    ((List.range' s n).map f).getD j [] = f ((List.range' s n).getD j 0) := by
  have hj2 : j < (List.range' s n).length := by rw [List.length_range']; exact hj
  rw [List.getD_eq_getElem?_getD, List.getElem?_map, List.getElem?_eq_getElem hj2]
  simp [List.getD_eq_getElem?_getD, List.getElem?_eq_getElem hj2]

/-- Helper: entries of the zero column. -/
theorem getD_replicate_zero (n k : ℕ) :
    (List.replicate n (0:ℝ)).getD k 0 = 0 := by
  rw [List.getD_eq_getElem?_getD, List.getElem?_replicate]
  by_cases hk : k < n <;> simp [hk]

/-- Length and entrywise value of the weighted accumulation loops of IRK.dxdt
(both the xp_j sum and the continuity fold have this shape). -/
theorem foldl_vadd_vsmul (g : ℕ → ℝ) (cols : ℕ → List ℝ) (nx : ℕ) :
    ∀ (rs : List ℕ) (acc : List ℝ), acc.length = nx →
      (∀ r ∈ rs, (cols r).length = nx) →
      (rs.foldl (fun a r => vadd a (vsmul (g r) (cols r))) acc).length = nx ∧
      ∀ k, k < nx →
        (rs.foldl (fun a r => vadd a (vsmul (g r) (cols r))) acc).getD k 0 =
          acc.getD k 0 + (rs.map (fun r => g r * (cols r).getD k 0)).sum := by
  intro rs
  induction rs with
  | nil => intro acc ha _; exact ⟨ha, fun k hk => by simp⟩
  | cons r rest ih =>
    intro acc ha hcols
    have hcr : (cols r).length = nx := hcols r (List.mem_cons_self r rest)
    have hlen1 : (vadd acc (vsmul (g r) (cols r))).length = nx := by
      rw [length_vadd, length_vsmul, ha, hcr, min_self]
    obtain ⟨ihl, ihv⟩ := ih (vadd acc (vsmul (g r) (cols r))) hlen1
      (fun r2 hr2 => hcols r2 (List.mem_cons_of_mem r hr2))
    refine ⟨by rw [List.foldl_cons]; exact ihl, ?_⟩
    intro k hk
    rw [List.foldl_cons, ihv k hk,
      getD_vadd acc (vsmul (g r) (cols r)) k (by rw [ha]; exact hk)
        (by rw [length_vsmul, hcr]; exact hk),
      getD_vsmul (g r) (cols r) k (by rw [hcr]; exact hk)]
    rw [List.map_cons, List.sum_cons]
    ring

/-- The sampled controls of the implicit integrator under the CONSTANT control
type are the unchanged control matrix, once per collocation equation. -/
theorem sampledControls_constant (degree : ℕ) (u : List (List ℝ)) :
    IRK.sampledControls degree ControlType.CONSTANT u =
      Except.ok (List.replicate degree u) := by
  have hfun : (fun i => IRK.get_u ControlType.CONSTANT u (IRK.controlTime degree i)) =
      (fun _ : ℕ => (Except.ok u : Except PyError (List (List ℝ)))) := rfl
  rw [IRK.sampledControls, hfun, mapM_const_ok, map_const_range']

/-- C2: for degree d >= 1 the implicit integrator's collocation points are the d
Legendre roots in (0, 1] prepended by the point 0; exactly d residual equations are
formed, one per j in 1..d and none for j = 0 (x0 is the fixed boundary point), each
equal, row by row, to h * dynamics(x_j, u_j, p) - sum over r of C[r, j] * x_r; and
the finite-element output state is the D-weighted sum over all d + 1 state points,
xf[k] = sum over r of D[r] * x_r[k] with x_0 = x0 and x_1..x_d the states returned
by the root-finder. -/
theorem C2_collocation_structure
    (degree nx idx : ℕ) (pts : List ℝ)
    (fn : List ℝ → List (List ℝ) → List ℝ → List (List ℝ))
    (solver : (List (List ℝ) → List (List ℝ)) → List (List ℝ))
    (h : ℝ) (x0 : List ℝ) (u : List (List ℝ)) (params : List ℝ)
    (hd : 1 ≤ degree)
    (hpts : IsLegendreCollocationPoints degree pts)
    (hx0 : x0.length = nx)
    (hfn : ∀ (xa : List ℝ) (ua : List (List ℝ)),
      ((fn xa ua params).getD idx []).length = nx)
    (hsolver : ∀ F, (solver F).length = degree ∧ ∀ c ∈ solver F, c.length = nx) :
    ((0:ℝ) :: pts).length = degree + 1 ∧
    ((0:ℝ) :: pts).getD 0 0 = 0 ∧
    (∀ t ∈ pts, 0 < t ∧ t ≤ 1 ∧ (shiftedLegendre degree).eval t = 0) ∧
    (∀ (us : List (List (List ℝ))) (x : List (List ℝ)),
      (IRK.residualList degree nx idx ((0:ℝ) :: pts) fn h params us x).length = degree) ∧
    (0 ∉ List.range' 1 degree) ∧
    (∀ j, j ∈ List.range' 1 degree ↔ 1 ≤ j ∧ j ≤ degree) ∧
    (∀ (us : List (List (List ℝ))) (x : List (List ℝ)),
      x.length = degree + 1 → (∀ c ∈ x, c.length = nx) →
      ∀ j, 1 ≤ j → j ≤ degree → ∀ k, k < nx →
      ((IRK.residualList degree nx idx ((0:ℝ) :: pts) fn h params us x).getD
          (j - 1) []).getD k 0 =
        h * ((fn (x.getD j []) (us.getD (j - 1) []) params).getD idx []).getD k 0 -
          ((List.range (degree + 1)).map (fun r =>
            collC ((0:ℝ) :: pts) r j * (x.getD r []).getD k 0)).sum) ∧
    (∃ xf, IRK.dxdt degree nx idx ControlType.CONSTANT pts fn solver h x0 u params =
        Except.ok (xf, [x0, xf]) ∧
      ∀ k, k < nx → xf.getD k 0 =
        ((List.range (degree + 1)).map (fun r =>
          collD ((0:ℝ) :: pts) r *
            ((x0 :: solver (fun xs => IRK.residualList degree nx idx ((0:ℝ) :: pts)
              fn h params (List.replicate degree u) (x0 :: xs))).getD r []).getD
              k 0)).sum) := by
  obtain ⟨hlen, hsort, hmem⟩ := hpts
  refine ⟨by simp [hlen], rfl, hmem, ?_, ?_, ?_, ?_, ?_⟩
  · intro us x
    simp [IRK.residualList, List.length_range']
  · intro hc
    rw [List.mem_range'_1] at hc
    omega
  · intro j
    rw [List.mem_range'_1]
    omega
  · intro us x hxl hx j hj1 hj2 k hk
    have hcols : ∀ r ∈ List.range (degree + 1), (x.getD r []).length = nx := by
      intro r hr
      rw [List.mem_range] at hr
      exact hx (x.getD r []) (getD_mem_of_lt x [] r (by omega))
    obtain ⟨hfold_len, hfold_val⟩ := foldl_vadd_vsmul
      (fun r => collC ((0:ℝ) :: pts) r j) (fun r => x.getD r []) nx
      (List.range (degree + 1)) (List.replicate nx 0) (by simp) hcols
    have hres : (IRK.residualList degree nx idx ((0:ℝ) :: pts) fn h params us x).getD
        (j - 1) [] = IRK.residual degree nx idx ((0:ℝ) :: pts) fn h params us x j := by
      rw [IRK.residualList, getD_map_range' 1 degree _ (j - 1) (by omega),
        getD_range' 1 degree (j - 1) (by omega)]
      congr 1
      omega
    rw [hres]
    simp only [IRK.residual]
    rw [getD_vsub _ _ k (by rw [length_vsmul]; rw [hfn]; exact hk)
        (by rw [hfold_len]; exact hk),
      getD_vsmul _ _ k (by rw [hfn]; exact hk),
      hfold_val k hk, getD_replicate_zero, zero_add]
  · obtain ⟨hsol_len, hsol_cols⟩ := hsolver (fun xs =>
      IRK.residualList degree nx idx ((0:ℝ) :: pts) fn h params
        (List.replicate degree u) (x0 :: xs))
    have hcols : ∀ r ∈ List.range (degree + 1),
        ((x0 :: solver (fun xs => IRK.residualList degree nx idx ((0:ℝ) :: pts)
          fn h params (List.replicate degree u) (x0 :: xs))).getD r []).length = nx := by
      intro r hr
      rw [List.mem_range] at hr
      have hmem2 := getD_mem_of_lt
        (x0 :: solver (fun xs => IRK.residualList degree nx idx ((0:ℝ) :: pts)
          fn h params (List.replicate degree u) (x0 :: xs))) [] r
        (by simp [hsol_len]; omega)
      rcases List.mem_cons.mp hmem2 with hc | hc
      · rw [hc]; exact hx0
      · exact hsol_cols _ hc
    obtain ⟨hfold_len, hfold_val⟩ := foldl_vadd_vsmul
      (fun r => collD ((0:ℝ) :: pts) r)
      (fun r => (x0 :: solver (fun xs => IRK.residualList degree nx idx ((0:ℝ) :: pts)
        fn h params (List.replicate degree u) (x0 :: xs))).getD r []) nx
      (List.range (degree + 1)) (List.replicate nx 0) (by simp) hcols
    refine ⟨IRK.xfFold degree nx ((0:ℝ) :: pts)
      (x0 :: solver (fun xs => IRK.residualList degree nx idx ((0:ℝ) :: pts)
        fn h params (List.replicate degree u) (x0 :: xs))), ?_, ?_⟩
    · rw [IRK.dxdt]
      rw [sampledControls_constant]
      simp only [Except.bind, Bind.bind, pure, Except.pure]
    · intro k hk
      rw [IRK.xfFold, hfold_val k hk, getD_replicate_zero, zero_add]

/-- Witness for C2 at degree 1, a one-row state and a trivial dynamics and solver. -/
theorem C2_collocation_structure_witness :
    ((0:ℝ) :: [(1:ℝ)/2]).length = 1 + 1 ∧
    ((0:ℝ) :: [(1:ℝ)/2]).getD 0 0 = 0 ∧
    (∀ t ∈ [(1:ℝ)/2], 0 < t ∧ t ≤ 1 ∧ (shiftedLegendre 1).eval t = 0) ∧
    (∀ (us : List (List (List ℝ))) (x : List (List ℝ)),
      (IRK.residualList 1 1 0 ((0:ℝ) :: [(1:ℝ)/2])
        (fun _ _ _ => [[(0:ℝ)]]) 1 [] us x).length = 1) ∧
    (0 ∉ List.range' 1 1) ∧
    (∀ j, j ∈ List.range' 1 1 ↔ 1 ≤ j ∧ j ≤ 1) ∧
    (∀ (us : List (List (List ℝ))) (x : List (List ℝ)),
      x.length = 1 + 1 → (∀ c ∈ x, c.length = 1) →
      ∀ j, 1 ≤ j → j ≤ 1 → ∀ k, k < 1 →
      ((IRK.residualList 1 1 0 ((0:ℝ) :: [(1:ℝ)/2])
          (fun _ _ _ => [[(0:ℝ)]]) 1 [] us x).getD (j - 1) []).getD k 0 =
        1 * (([[(0:ℝ)]] : List (List ℝ)).getD 0 []).getD k 0 -
          ((List.range (1 + 1)).map (fun r =>
            collC ((0:ℝ) :: [(1:ℝ)/2]) r j * (x.getD r []).getD k 0)).sum) ∧
    (∃ xf, IRK.dxdt 1 1 0 ControlType.CONSTANT [(1:ℝ)/2]
        (fun _ _ _ => [[(0:ℝ)]]) (fun _ => [[(0:ℝ)]]) 1 [(0:ℝ)] [] [] =
        Except.ok (xf, [[(0:ℝ)], xf]) ∧
      ∀ k, k < 1 → xf.getD k 0 =
        ((List.range (1 + 1)).map (fun r =>
          collD ((0:ℝ) :: [(1:ℝ)/2]) r *
            (([[(0:ℝ)], [(0:ℝ)]] : List (List ℝ)).getD r []).getD k 0)).sum) :=
  C2_collocation_structure 1 1 0 [(1:ℝ)/2] (fun _ _ _ => [[(0:ℝ)]])
    (fun _ => [[(0:ℝ)]]) 1 [(0:ℝ)] [] [] le_rfl legendre_points_deg_one rfl
    (fun _ _ => rfl) (fun F => ⟨rfl, by simp⟩)
